import Mathlib

/-!
The pull-request reminder: the pipeline of `src/main.go`.

A shallow embedding of the pure parts of the pull-request reminder job
(`getProjects`, `getPullRequests`, `filterReviewers`, `generateSlackMessage`,
`validateConfig` and the host normalisation of `main`) together with the
properties of them stated in the specification.

Conventions of the embedding:

* Go slices are lists; `append(xs, x)` is `xs ++ [x]`; a `for _, x := range xs`
  loop that updates local variables is a left fold over `xs`.
* A call of the Bitbucket client is a call of an oracle of type
  `σ → Except String α × σ`, where `σ` is the state of the outside world.
  `log.Fatal(err)` ends the run: the function returns `.error err`.
* A Go run-time panic (index out of range) is the result `none`.
* Go strings are Lean strings; `==` on strings is equality.
-/

set_option autoImplicit false

namespace PrReminder

/-! ## Types of the Bitbucket client library -/

/-- Modelled from the spec: `bitclient.User`, declared in the client library and
not in the sources. The program reads `Name` (reviewers) and `Slug` (author). -/
structure User where
  Name : String
  Slug : String
  deriving DecidableEq, Repr

/-- Modelled from the spec: `bitclient.Participant`, declared in the client
library. The program reads `User.Name` and `Status`; `Role` and `Approved` are
carried along when a participant is copied. -/
structure Participant where
  User : User
  Role : String
  Approved : Bool
  Status : String
  deriving DecidableEq, Repr

/-- Modelled from the spec: `bitclient.Link`, a Go map from strings to strings
(the program reads `link["href"]`), held as an association list. -/
abbrev Link := List (String × String)

/-- Go map read `link[key]` on a `bitclient.Link`: the value stored under `key`,
the empty string when the key is absent. -/
def Link.get (link : Link) (key : String) : String :=
  match link.find? (fun kv => kv.1 = key) with
  | some kv => kv.2
  | none => ""

/-- Modelled from the spec: `bitclient.Links`, a Go map from relation names to
slices of links (the program reads `Links["self"]`), held as an association
list. -/
abbrev Links := List (String × List Link)

/-- Go map read `links[rel]` on a `bitclient.Links`: the slice stored under
`rel`, the nil slice when the relation is absent. -/
def Links.get (links : Links) (rel : String) : List Link :=
  match links.find? (fun kv => kv.1 = rel) with
  | some kv => kv.2
  | none => []

/-- Modelled from the spec: `bitclient.Project`, with the fields `{id, key, name}`
the program reads. -/
structure Project where
  Id : Nat
  Key : String
  Name : String
  deriving DecidableEq, Repr

/-- Modelled from the spec: `bitclient.Repository`, with the fields
`{slug, name, project}` the program reads. -/
structure Repository where
  Slug : String
  Name : String
  Project : Project
  deriving DecidableEq, Repr

/-- Modelled from the spec: `bitclient.PullRequest` as returned by the server,
with the fields `getPullRequests` reads. -/
structure PullRequest where
  Title : String
  Author : Participant
  CreatedDate : Nat
  Reviewers : List Participant
  Links : Links
  deriving DecidableEq, Repr

/-- Modelled from the spec: `bitclient.PagedRequest`; the program sets `Limit`. -/
structure PagedRequest where
  Limit : Nat
  Start : Nat := 0
  deriving DecidableEq, Repr

/-- Modelled from the spec: `bitclient.GetPullRequestsRequest`; the program sets
the paging and `WithProperties`. -/
structure GetPullRequestsRequest where
  PagedRequest : PagedRequest
  WithProperties : Bool
  deriving DecidableEq, Repr

/-- Modelled from the spec: `bitclient.GetProjectsResponse`; the program reads
and writes `Values` only. -/
structure GetProjectsResponse where
  Values : List Project
  deriving DecidableEq, Repr

/-- Modelled from the spec: `bitclient.GetPullRequestsResponse`; the program
reads `Values` only. -/
structure GetPullRequestsResponse where
  Values : List PullRequest
  deriving DecidableEq, Repr

/-- Modelled from the spec: the two methods of `bitclient.BitClient` used by the
functions below, as oracles over the state `σ` of the outside world. Each
returns the Go pair `(response, err)` as an `Except` value, and the next state. -/
structure BitClient (σ : Type) where
  GetProjects : PagedRequest → σ → Except String GetProjectsResponse × σ
  GetPullRequests :
    String → String → GetPullRequestsRequest → σ → Except String GetPullRequestsResponse × σ

/-! ## Types of the Slack library -/

/-- Modelled from the spec: `slack.TextBlockObject`, the four arguments of
`slack.NewTextBlockObject`. The Go field `Type` is `TextType` here. -/
structure TextBlockObject where
  TextType : String
  Text : String
  Emoji : Bool
  Verbatim : Bool
  deriving DecidableEq, Repr

/-- Modelled from the spec: `slack.Block`, restricted to the two kinds of block
the program builds: a divider, and a section holding one text object (its
fields and accessory are `nil` at every call). -/
inductive Block where
  | DividerBlock : Block
  | SectionBlock (text : TextBlockObject) : Block
  deriving DecidableEq, Repr

/-- The call `slack.NewDividerBlock()`. -/
def NewDividerBlock : Block := Block.DividerBlock

/-- The call `slack.NewTextBlockObject(elementType, text, emoji, verbatim)`. -/
def NewTextBlockObject (elementType text : String) (emoji verbatim : Bool) : TextBlockObject :=
  { TextType := elementType, Text := text, Emoji := emoji, Verbatim := verbatim }

/-- The call `slack.NewSectionBlock(textObj, nil, nil)`. -/
def NewSectionBlock (textObj : TextBlockObject) : Block := Block.SectionBlock textObj

/-- Modelled from the spec: `slack.Blocks`. -/
structure Blocks where
  BlockSet : List Block
  deriving DecidableEq, Repr

/-- Modelled from the spec: `slack.WebhookMessage`; the program sets `Blocks`. -/
structure WebhookMessage where
  Blocks : Blocks
  deriving DecidableEq, Repr

/-! ## Types of `main.go` -/

/-- The anonymous struct `Config.Bitbucket`. -/
structure BitbucketConfig where
  Host : String
  User : String
  Password : String
  deriving DecidableEq, Repr

/-- The anonymous struct `Config.Slack`. -/
structure SlackConfig where
  WebhookURL : String
  deriving DecidableEq, Repr

/-- The type `Projects`: one entry of the configured allow-list. -/
structure Projects where
  Key : String
  Repos : List String
  deriving DecidableEq, Repr

/-- The type `Config`. -/
structure Config where
  Bitbucket : BitbucketConfig
  Projects : List Projects
  FilterReviewers : List String
  Slack : SlackConfig
  deriving DecidableEq, Repr

/-- The type `pullRequest`. -/
structure pullRequest where
  Reviewers : List Participant
  Link : List Link
  CreatedDate : Nat
  Author : String
  deriving DecidableEq, Repr

/-- The type `pullRequestList`. -/
structure pullRequestList where
  ProjectKey : String
  ProjectName : String
  RepositoryKey : String
  RepositoryName : String
  Title : String
  PullRequests : List pullRequest
  deriving DecidableEq, Repr

/-! ## Go standard library -/

/-- Go `strings.Contains(s, substr)`: `substr` occurs in `s` at some position,
that is, it is a prefix of some suffix of `s`. Go compares bytes and Lean
characters; for UTF-8 text and an ASCII `substr` such as `https://` the two
agree. -/
def stringsContains (s substr : String) : Bool :=
  s.data.tails.any (fun t => substr.data.isPrefixOf t)

/-! ## Functions of `main.go` -/

/-- The method `getConfigProjects`: the keys of the configured projects. -/
def getConfigProjects (cfg : Config) : List String :=
  cfg.Projects.foldl (fun out value => out ++ [value.Key]) []

/-- The method `getProjects`: one page of projects is fetched; with a non-empty
allow-list the fetched projects are scanned in order and, for each, the
allow-list keys are scanned in order, the project being appended at every key
equal to its own. -/
def getProjects {σ : Type} (c : BitClient σ) (cfg : Config) (s : σ) :
    Except String GetProjectsResponse × σ :=
  let pagedRequest : PagedRequest := { Limit := 100 }
  match c.GetProjects pagedRequest s with
  | (.error err, s1) => (.error err, s1)
  | (.ok projectResponse, s1) =>
    if cfg.Projects.length > 0 then
      let userProjects := getConfigProjects cfg
      let outProjects : GetProjectsResponse :=
        { Values := projectResponse.Values.foldl
            (fun out pr =>
              userProjects.foldl (fun out ur => if pr.Key = ur then out ++ [pr] else out) out)
            [] }
      (.ok outProjects, s1)
    else
      (.ok projectResponse, s1)

/-- The request built at the head of `getPullRequests`. -/
def prRequest : GetPullRequestsRequest :=
  { PagedRequest := { Limit := 10 }, WithProperties := true }

/-- The body of the inner loop of `getPullRequests`: the record built for the
pull request `responseValues` of the repository `repo`. The reviewers are
copied one by one into a fresh slice. -/
def currentPullRequest (repo : Repository) (responseValues : PullRequest) : pullRequestList :=
  let currentPullRequestInfo : pullRequest :=
    { Author := responseValues.Author.User.Slug
      CreatedDate := responseValues.CreatedDate
      Link := Links.get responseValues.Links "self"
      Reviewers := responseValues.Reviewers.foldl (fun revs reviwer => revs ++ [reviwer]) [] }
  { ProjectKey := repo.Project.Key
    ProjectName := repo.Project.Name
    RepositoryKey := repo.Slug
    RepositoryName := repo.Name
    Title := responseValues.Title
    PullRequests := [] ++ [currentPullRequestInfo] }

/-- The outer loop of `getPullRequests`, with the slice `pullRequests` built so
far: for each repository one page of pull requests is fetched; a fetch error
ends the run; each pull request of a non-empty page appends one record. -/
def getPullRequestsLoop {σ : Type} (c : BitClient σ) :
    List Repository → List pullRequestList → σ → Except String (List pullRequestList) × σ
  | [], pullRequests, s => (.ok pullRequests, s)
  | repo :: rest, pullRequests, s =>
    match c.GetPullRequests repo.Project.Key repo.Slug prRequest s with
    | (.error err, s1) => (.error err, s1)
    | (.ok prResponse, s1) =>
      if prResponse.Values.length > 0 then
        getPullRequestsLoop c rest
          (prResponse.Values.foldl
            (fun pullRequests responseValues =>
              pullRequests ++ [currentPullRequest repo responseValues])
            pullRequests)
          s1
      else
        getPullRequestsLoop c rest pullRequests s1

/-- The method `getPullRequests`. -/
def getPullRequests {σ : Type} (c : BitClient σ) (repos : List Repository) (s : σ) :
    Except String (List pullRequestList) × σ :=
  getPullRequestsLoop c repos [] s

/-- The function `filterReviewers`: a reviewer is kept when the count of
exclusion entries equal to its name is zero. The Go counter is an `int` and is
incremented at most `len(cfg.FilterReviewers)` times, a value that is itself an
`int`, so it never wraps; it is a natural number here. -/
def filterReviewers (cfg : Config) (reviewerList : List Participant) : List Participant :=
  reviewerList.foldl
    (fun toReturn reviewer =>
      let counter :=
        cfg.FilterReviewers.foldl
          (fun counter ft => if reviewer.User.Name = ft then counter + 1 else counter) 0
      if counter = 0 then toReturn ++ [reviewer] else toReturn)
    []

/-- The inner loop of `generateSlackMessage` (lines 210-217): the string
`reviewers` built from the filtered reviewers. -/
def reviewersString (reviewersList : List Participant) : String :=
  reviewersList.foldl
    (fun reviewers rev =>
      if rev.Status = "UNAPPROVED" then reviewers ++ (rev.User.Name ++ " ") else reviewers)
    ""

/-- The value of `messageText` in the loop body of `generateSlackMessage` for
the record `pr`: `none` when `pr.PullRequests[0]` or
`pr.PullRequests[0].Link[0]` is out of range (a run-time panic). The format
string is the one of the `fmt.Sprintf` call; `%v` prints a string as it is. -/
def messageText (cfg : Config) (pr : pullRequestList) : Option String :=
  match pr.PullRequests[0]? with
  | none => none
  | some pr0 =>
    let reviewersList := filterReviewers cfg pr0.Reviewers
    let reviewers := reviewersString reviewersList
    match pr0.Link[0]? with
    | none => none
    | some link0 =>
      some ("*Project:* " ++ pr.ProjectName ++ " " ++ pr.ProjectKey ++ "\n*Repository:* "
        ++ pr.RepositoryName ++ "\n*<" ++ Link.get link0 "href" ++ "|" ++ pr.Title
        ++ ">*\n*To review:* " ++ reviewers)

/-- The header section built at the head of `generateSlackMessage`. -/
def headerSection : Block :=
  NewSectionBlock (NewTextBlockObject "plain_text" "Время поревьюить :party-parrot:" true false)

/-- The section block appended for a record whose message text is `text`. -/
def messageSection (text : String) : Block :=
  NewSectionBlock (NewTextBlockObject "mrkdwn" text false false)

/-- The loop of `generateSlackMessage` over the records, with the slice
`messageBlocks` built so far. -/
def generateSlackMessageLoop (cfg : Config) :
    List pullRequestList → List Block → Option (List Block)
  | [], messageBlocks => some messageBlocks
  | pr :: rest, messageBlocks =>
    match messageText cfg pr with
    | none => none
    | some text =>
      generateSlackMessageLoop cfg rest ((messageBlocks ++ [messageSection text]) ++ [NewDividerBlock])

/-- The function `generateSlackMessage`. -/
def generateSlackMessage (cfg : Config) (pullRequests : List pullRequestList) :
    Option WebhookMessage :=
  match generateSlackMessageLoop cfg pullRequests ([] ++ [headerSection]) with
  | none => none
  | some messageBlocks => some { Blocks := { BlockSet := messageBlocks } }

/-- The function `validateConfig`, as a state transformer on the configuration
it receives by pointer: the configuration after the call and the returned
error (`none` is Go `nil`). -/
def validateConfig (cfg : Config) : Config × Option String :=
  if cfg.Slack.WebhookURL = "" then
    (cfg, some "webhookURL should be set either in config or as REMINDER_SLACK_URL environment variable")
  else
    (cfg, none)

/-- Lines 72-74 of `main`: the host gets the prefix `https://` and the suffix
`/` when it does not contain `https://`. -/
def normalizeHost (cfg : Config) : Config :=
  if !stringsContains cfg.Bitbucket.Host "https://" then
    { cfg with Bitbucket := { cfg.Bitbucket with Host := "https://" ++ cfg.Bitbucket.Host ++ "/" } }
  else
    cfg

/-! ## Inputs and predicates used in the statements -/

/-- A client over a world without state: the project listing is `projects`, and
the pull requests of the repository `slug` of the project `key` are
`pages key slug`; no call fails. -/
def fixedClient (projects : List Project) (pages : String → String → List PullRequest) :
    BitClient Unit where
  GetProjects := fun _ s => (.ok { Values := projects }, s)
  GetPullRequests := fun key slug _ s => (.ok { Values := pages key slug }, s)

/-- A client without pull requests. -/
def noPages : String → String → List PullRequest := fun _ _ => []

/-- A configuration with the allow-list `keys` (no repository names), no
excluded reviewers and a webhook URL. -/
def allowListConfig (keys : List String) : Config :=
  { Bitbucket := { Host := "https://bitbucket.local/", User := "bot", Password := "secret" }
    Projects := keys.map (fun k => { Key := k, Repos := [] })
    FilterReviewers := []
    Slack := { WebhookURL := "https://hooks.local/T/1" } }

/-- The project `A` of the examples. -/
def projectA : Project := { Id := 1, Key := "A", Name := "Alpha" }

/-- The project `B` of the examples. -/
def projectB : Project := { Id := 2, Key := "B", Name := "Beta" }

/-- The record has a first nested pull request, and that one has a first link:
the two index expressions `pr.PullRequests[0]` and `pr.PullRequests[0].Link[0]`
of `generateSlackMessage` are in range. -/
def hasFirstLink (pr : pullRequestList) : Bool :=
  match pr.PullRequests with
  | [] => false
  | pr0 :: _ =>
    match pr0.Link with
    | [] => false
    | _ :: _ => true

/-- The reviewer `alice` of the end-to-end example. -/
def alice : Participant :=
  { User := { Name := "alice", Slug := "alice" }, Role := "REVIEWER", Approved := false,
    Status := "UNAPPROVED" }

/-- The reviewer `bob` of the end-to-end example. -/
def bob : Participant :=
  { User := { Name := "bob", Slug := "bob" }, Role := "REVIEWER", Approved := true,
    Status := "APPROVED" }

/-- The project of the end-to-end example. -/
def exampleProject : Project := { Id := 7, Key := "TEAM", Name := "Team" }

/-- The repository of the end-to-end example. -/
def exampleRepository : Repository :=
  { Slug := "svc", Name := "Service", Project := exampleProject }

/-- The pull request of the end-to-end example, as the server returns it. -/
def examplePullRequest : PullRequest :=
  { Title := "Fix bug"
    Author := { User := { Name := "carol", Slug := "carol" }, Role := "AUTHOR", Approved := false,
                Status := "UNAPPROVED" }
    CreatedDate := 1700000000
    Reviewers := [alice, bob]
    Links := [("self", [[("href", "https://host/pr/1")]])] }

/-- The configuration of the end-to-end example: the exclusion list is `["bob"]`. -/
def exampleConfig : Config :=
  { Bitbucket := { Host := "https://host/", User := "bot", Password := "secret" }
    Projects := []
    FilterReviewers := ["bob"]
    Slack := { WebhookURL := "https://hooks.local/T/1" } }

/-- The client of the end-to-end example: every repository has the example pull
request as its only open pull request. -/
def exampleClient : BitClient Unit :=
  fixedClient [exampleProject] (fun _ _ => [examplePullRequest])

/-- The record `getPullRequests` builds in the end-to-end example. -/
def exampleRecord : pullRequestList :=
  { ProjectKey := "TEAM"
    ProjectName := "Team"
    RepositoryKey := "svc"
    RepositoryName := "Service"
    Title := "Fix bug"
    PullRequests :=
      [{ Reviewers := [alice, bob]
         Link := [[("href", "https://host/pr/1")]]
         CreatedDate := 1700000000
         Author := "carol" }] }

/-- A record without a nested pull request. -/
def emptyRecord : pullRequestList :=
  { ProjectKey := "TEAM", ProjectName := "Team", RepositoryKey := "svc",
    RepositoryName := "Service", Title := "Fix bug", PullRequests := [] }

/-- A pull request for which the server returns no `self` link. -/
def unlinkedPullRequest : PullRequest := { examplePullRequest with Links := [] }

/-- A second record: three reviewers, of which `bob` is approved and `dave`
needs work. -/
def secondRecord : pullRequestList :=
  { ProjectKey := "OPS"
    ProjectName := "Operations"
    RepositoryKey := "infra"
    RepositoryName := "Infra"
    Title := "Rotate keys"
    PullRequests :=
      [{ Reviewers :=
           [bob,
            { User := { Name := "dave", Slug := "dave" }, Role := "REVIEWER", Approved := false,
              Status := "NEEDS_WORK" },
            alice,
            { User := { Name := "erin", Slug := "erin" }, Role := "REVIEWER", Approved := false,
              Status := "UNAPPROVED" }]
         Link := [[("href", "https://host/pr/2")]]
         CreatedDate := 1700000100
         Author := "carol" }] }

/-- The pages the server returns: `Fetched c s repos pages` holds when the calls
`getPullRequests` makes for the repositories `repos`, one after the other from
the state `s`, all succeed, the call for the `j`-th repository returning the
page `pages[j]`. -/
def Fetched {σ : Type} (c : BitClient σ) : σ → List Repository → List (List PullRequest) → Prop
  | _, [], [] => True
  | s, repo :: rest, page :: pages =>
    (c.GetPullRequests repo.Project.Key repo.Slug prRequest s).1 = .ok { Values := page }
      ∧ Fetched c (c.GetPullRequests repo.Project.Key repo.Slug prRequest s).2 rest pages
  | _, _ :: _, [] => False
  | _, [], _ :: _ => False

/-- Whether the calls succeed with the given pages can be computed: it is a
finite conjunction of comparisons of responses. -/
def Fetched.decide {σ : Type} (c : BitClient σ) :
    (s : σ) → (repos : List Repository) → (pages : List (List PullRequest)) →
      Decidable (Fetched c s repos pages)
  | _, [], [] => isTrue trivial
  | s, repo :: rest, page :: pages =>
    match hc : (c.GetPullRequests repo.Project.Key repo.Slug prRequest s).1 with
    | .error err => isFalse (fun h => by rw [Fetched, hc] at h; exact Except.noConfusion h.1)
    | .ok resp =>
      if hp : resp.Values = page then
        match Fetched.decide c (c.GetPullRequests repo.Project.Key repo.Slug prRequest s).2
            rest pages with
        | isTrue hrest => isTrue (by rw [Fetched, hc, ← hp]; exact ⟨rfl, hrest⟩)
        | isFalse hrest => isFalse (fun h => hrest (by rw [Fetched] at h; exact h.2))
      else
        isFalse (fun h => by
          rw [Fetched, hc] at h
          exact hp (congrArg GetPullRequestsResponse.Values (Except.ok.inj h.1)))
  | _, _ :: _, [] => isFalse (fun h => by rw [Fetched] at h; exact h)
  | _, [], _ :: _ => isFalse (fun h => by rw [Fetched] at h; exact h)

instance {σ : Type} (c : BitClient σ) (s : σ) (repos : List Repository)
    (pages : List (List PullRequest)) : Decidable (Fetched c s repos pages) :=
  Fetched.decide c s repos pages

/-- A repository of the example project without open pull requests. -/
def quietRepository : Repository :=
  { Slug := "docs", Name := "Docs", Project := exampleProject }

/-- A second pull request of the examples. -/
def secondPullRequest : PullRequest :=
  { Title := "Rotate keys"
    Author := alice
    CreatedDate := 1700000100
    Reviewers := [bob]
    Links := [("self", [[("href", "https://host/pr/2")]])] }

/-- A client whose answer depends on the state of the world: the state counts
the calls, and the page of the repository `svc` holds the example pull request
and, from the second call on, the second pull request as well; the repository
`docs` has no pull request. -/
def countingClient : BitClient Nat where
  GetProjects := fun _ s => (.ok { Values := [exampleProject] }, s + 1)
  GetPullRequests := fun _ slug _ s =>
    (.ok { Values :=
        if slug = "svc" then
          (if s = 0 then [examplePullRequest] else [examplePullRequest, secondPullRequest])
        else [] },
      s + 1)

/-- The notion "the host has a URL scheme" of the specification, which the
source does not define: the host starts with a scheme name (a letter followed
by letters, digits, `+`, `-` or `.`) followed by `://`. -/
def hasUrlScheme (host : String) : Bool :=
  match host.data with
  | [] => false
  | ch :: rest =>
    ch.isAlpha
      && "://".data.isPrefixOf
          (rest.dropWhile (fun x => x.isAlphanum || x == '+' || x == '-' || x == '.'))

/-- The example configuration with the host `host`. -/
def hostConfig (host : String) : Config :=
  { exampleConfig with Bitbucket := { exampleConfig.Bitbucket with Host := host } }

/-! ## Loops as list functions -/

/-- A loop that appends `f x` for the elements `x` satisfying `p` computes the
mapped filter, after the initial slice. -/
theorem foldl_append_if {α β : Type} (p : α → Prop) [DecidablePred p] (f : α → β)
    (l : List α) (init : List β) :
    l.foldl (fun acc x => if p x then acc ++ [f x] else acc) init
      = init ++ (l.filter (fun x => decide (p x))).map f := by
  induction l generalizing init with
  | nil => simp
  | cons x xs ih =>
    by_cases hx : p x
    · simp [List.foldl_cons, ih, hx, List.filter_cons]
    · simp [List.foldl_cons, ih, hx, List.filter_cons]

/-- A loop that appends every element computes the list itself, after the
initial slice. -/
theorem foldl_append_all {α β : Type} (f : α → β) (l : List α) (init : List β) :
    l.foldl (fun acc x => acc ++ [f x]) init = init ++ l.map f := by
  induction l generalizing init with
  | nil => simp
  | cons x xs ih => simp [List.foldl_cons, ih]

/-- The counting loop of `filterReviewers` adds to the counter the number of
occurrences of the name in the exclusion list. -/
theorem foldl_counter (name : String) (E : List String) (n : Nat) :
    E.foldl (fun counter ft => if name = ft then counter + 1 else counter) n
      = n + E.count name := by
  induction E generalizing n with
  | nil => simp
  | cons e es ih =>
    by_cases h : name = e
    · subst h
      simp [List.foldl_cons, ih, Nat.add_comm, Nat.add_left_comm]
    · have h2 : ¬ e = name := fun h3 => h h3.symm
      simp [List.foldl_cons, ih, h, List.count_cons, h2]

/-- The function `filterReviewers` is the filter keeping the reviewers whose
name is not in the exclusion list. -/
theorem filterReviewers_eq_filter (cfg : Config) (R : List Participant) :
    filterReviewers cfg R
      = R.filter (fun r => decide (r.User.Name ∉ cfg.FilterReviewers)) := by
  unfold filterReviewers
  have h : ∀ reviewer : Participant,
      (cfg.FilterReviewers.foldl
        (fun counter ft => if reviewer.User.Name = ft then counter + 1 else counter) 0 = 0)
        ↔ reviewer.User.Name ∉ cfg.FilterReviewers := by
    intro reviewer
    rw [foldl_counter, Nat.zero_add, List.count_eq_zero]
  have h2 := foldl_append_if
    (fun reviewer : Participant =>
      cfg.FilterReviewers.foldl
        (fun counter ft => if reviewer.User.Name = ft then counter + 1 else counter) 0 = 0)
    id R []
  simp only [id, List.map_id_fun, List.nil_append, List.map_id] at h2
  rw [h2]
  apply List.filter_congr
  intro x _
  simp only [decide_eq_decide]
  exact h x

/-! ## Reviewer filter -/

/-- C2. For every reviewer list `R` and every exclusion list, `filterReviewers`
returns exactly the reviewers of `R` whose user name is not in the exclusion
list, in the order and with the multiplicities of `R`; it is a sublist of `R`;
an empty `R` gives an empty result and an empty exclusion list gives `R`. -/
theorem filterReviewers_spec (cfg : Config) (R : List Participant) :
    filterReviewers cfg R = R.filter (fun r => decide (r.User.Name ∉ cfg.FilterReviewers))
      ∧ List.Sublist (filterReviewers cfg R) R
      ∧ (∀ r, r ∈ filterReviewers cfg R ↔ r ∈ R ∧ r.User.Name ∉ cfg.FilterReviewers)
      ∧ filterReviewers cfg [] = []
      ∧ (cfg.FilterReviewers = [] → filterReviewers cfg R = R) := by
  refine ⟨filterReviewers_eq_filter cfg R, ?_, ?_, ?_, ?_⟩
  · rw [filterReviewers_eq_filter]
    exact List.filter_sublist R
  · intro r
    rw [filterReviewers_eq_filter]
    simp [List.mem_filter]
  · rfl
  · intro hE
    rw [filterReviewers_eq_filter, hE]
    simp

/-- C2 at a concrete input: with an empty exclusion list both reviewers are
kept. -/
theorem filterReviewers_spec_witness :
    filterReviewers (allowListConfig [])
        [⟨⟨"alice", "alice"⟩, "REVIEWER", false, "UNAPPROVED"⟩,
         ⟨⟨"bob", "bob"⟩, "REVIEWER", true, "APPROVED"⟩]
      = [⟨⟨"alice", "alice"⟩, "REVIEWER", false, "UNAPPROVED"⟩,
         ⟨⟨"bob", "bob"⟩, "REVIEWER", true, "APPROVED"⟩] :=
  (filterReviewers_spec (allowListConfig []) _).2.2.2.2 rfl

/-! ## Project selection -/

/-- The method `getConfigProjects` returns the keys of the configured
projects, in order. -/
theorem getConfigProjects_eq_map (cfg : Config) :
    getConfigProjects cfg = cfg.Projects.map (fun value => value.Key) := by
  unfold getConfigProjects
  rw [foldl_append_all]
  simp

/-- The inner loop of `getProjects` appends the project once for every
allow-list entry equal to its key. -/
theorem selection_inner (L : List String) (pr : Project) (out : List Project) :
    L.foldl (fun out ur => if pr.Key = ur then out ++ [pr] else out) out
      = out ++ List.replicate (L.count pr.Key) pr := by
  induction L generalizing out with
  | nil => simp
  | cons ur us ihL =>
    by_cases h : pr.Key = ur
    · subst h
      simp [List.foldl_cons, ihL, List.replicate_succ]
    · have h2 : ¬ ur = pr.Key := fun h3 => h h3.symm
      simp [List.foldl_cons, ihL, h, List.count_cons, h2]

/-- The selection loop of `getProjects` appends each fetched project once for
every allow-list entry equal to its key. -/
theorem selection_loop (L : List String) (P : List Project) (init : List Project) :
    P.foldl
        (fun out pr => L.foldl (fun out ur => if pr.Key = ur then out ++ [pr] else out) out)
        init
      = init ++ P.flatMap (fun pr => List.replicate (L.count pr.Key) pr) := by
  induction P generalizing init with
  | nil => simp
  | cons pr rest ih =>
    rw [List.foldl_cons, ih, selection_inner, List.flatMap_cons, List.append_assoc]

/-- What `getProjects` returns when the listing succeeds with the projects `P`:
with an empty allow-list `P` itself, otherwise each project of `P`, in order,
once for every allow-list entry whose key is its own. -/
theorem getProjects_values {σ : Type} (c : BitClient σ) (cfg : Config) (s : σ)
    (P : List Project) (h : (c.GetProjects { Limit := 100 } s).1 = .ok { Values := P }) :
    (getProjects c cfg s).1
      = .ok { Values :=
          if cfg.Projects = [] then P
          else P.flatMap (fun pr =>
            List.replicate ((cfg.Projects.map (fun value => value.Key)).count pr.Key) pr) } := by
  rcases hc : c.GetProjects { Limit := 100 } s with ⟨r, s1⟩
  rw [hc] at h
  simp only at h
  subst h
  by_cases hL : cfg.Projects = []
  · simp [getProjects, hc, hL]
  · have hlen : cfg.Projects.length > 0 := List.length_pos.mpr hL
    simp only [getProjects, hc, hlen, if_true, hL, if_false, getConfigProjects_eq_map,
      selection_loop, List.nil_append]

/-- With an allow-list without repeated keys, `getProjects` returns the
fetched projects whose key is in the allow-list, in fetch order. -/
theorem getProjects_nodup {σ : Type} (c : BitClient σ) (cfg : Config) (s : σ)
    (P : List Project) (h : (c.GetProjects { Limit := 100 } s).1 = .ok { Values := P })
    (hne : cfg.Projects ≠ [])
    (hnd : (cfg.Projects.map (fun value => value.Key)).Nodup) :
    (getProjects c cfg s).1
      = .ok { Values :=
          P.filter (fun pr => decide (pr.Key ∈ cfg.Projects.map (fun value => value.Key))) } := by
  rw [getProjects_values c cfg s P h, if_neg hne]
  congr 2
  clear h
  induction P with
  | nil => simp
  | cons pr rest ih =>
    rw [List.flatMap_cons, ih, List.filter_cons]
    by_cases hm : pr.Key ∈ cfg.Projects.map (fun value => value.Key)
    · rw [List.count_eq_one_of_mem hnd hm]
      simp [hm]
    · rw [List.count_eq_zero_of_not_mem hm]
      simp [hm]

/-- C1 at the allow-list `["A", "A"]` and the fetched projects `[A, B]`:
`getProjects` returns `[A, A]`, which is not a sublist of the fetched projects,
while the fetched projects whose key is in the allow-list are `[A]`. -/
theorem getProjects_repeated_key :
    (getProjects (fixedClient [projectA, projectB] noPages) (allowListConfig ["A", "A"]) ()).1
        = .ok { Values := [projectA, projectA] }
      ∧ ¬ List.Sublist [projectA, projectA] [projectA, projectB]
      ∧ [projectA, projectB].filter (fun pr => decide (pr.Key ∈ ["A", "A"])) = [projectA] := by
  refine ⟨rfl, ?_, by decide⟩
  decide

/-! ## Digest rendering -/

/-- The two index expressions of the loop body are in range exactly when the
record starts with a pull request that starts with a link. -/
theorem hasFirstLink_iff (pr : pullRequestList) :
    hasFirstLink pr = true
      ↔ ∃ p ps link links, pr.PullRequests = p :: ps ∧ p.Link = link :: links := by
  unfold hasFirstLink
  cases hp : pr.PullRequests with
  | nil => simp
  | cons p ps =>
    cases hl : p.Link with
    | nil => simp [hl]
    | cons link links => simp [hl]

/-- The message text of a record whose two index expressions are in range. -/
theorem messageText_of_first (cfg : Config) (pr : pullRequestList) (p : pullRequest)
    (ps : List pullRequest) (link : Link) (links : List Link)
    (hp : pr.PullRequests = p :: ps) (hl : p.Link = link :: links) :
    messageText cfg pr
      = some ("*Project:* " ++ pr.ProjectName ++ " " ++ pr.ProjectKey ++ "\n*Repository:* "
          ++ pr.RepositoryName ++ "\n*<" ++ Link.get link "href" ++ "|" ++ pr.Title
          ++ ">*\n*To review:* " ++ reviewersString (filterReviewers cfg p.Reviewers)) := by
  simp [messageText, hp, hl]

/-- The message text is undefined exactly when an index expression is out of
range. -/
theorem messageText_eq_none (cfg : Config) (pr : pullRequestList) :
    messageText cfg pr = none ↔ hasFirstLink pr = false := by
  unfold messageText hasFirstLink
  cases hp : pr.PullRequests with
  | nil => simp
  | cons p ps =>
    cases hl : p.Link with
    | nil => simp [hl]
    | cons link links => simp [hl]

/-- The loop of `generateSlackMessage` on records whose index expressions are in
range: it ends, and appends for each record its text block and a divider. -/
theorem generateSlackMessageLoop_ok (cfg : Config) (prs : List pullRequestList)
    (acc : List Block) (h : ∀ pr ∈ prs, hasFirstLink pr = true) :
    ∃ texts : List String,
      prs.map (messageText cfg) = texts.map some
        ∧ generateSlackMessageLoop cfg prs acc
            = some (acc ++ texts.flatMap (fun t => [messageSection t, NewDividerBlock])) := by
  induction prs generalizing acc with
  | nil => exact ⟨[], rfl, by simp [generateSlackMessageLoop]⟩
  | cons pr rest ih =>
    have hpr : hasFirstLink pr = true := h pr (List.mem_cons_self pr rest)
    have hrest : ∀ q ∈ rest, hasFirstLink q = true :=
      fun q hq => h q (List.mem_cons_of_mem pr hq)
    cases ht : messageText cfg pr with
    | none =>
      rw [messageText_eq_none] at ht
      rw [ht] at hpr
      exact absurd hpr (by decide)
    | some text =>
      obtain ⟨texts, hmap, hloop⟩ :=
        ih ((acc ++ [messageSection text]) ++ [NewDividerBlock]) hrest
      refine ⟨text :: texts, ?_, ?_⟩
      · simp [ht, hmap]
      · simp only [generateSlackMessageLoop, ht, hloop, List.flatMap_cons]
        simp

/-- The loop of `generateSlackMessage` panics when some record has an index
expression out of range. -/
theorem generateSlackMessageLoop_none (cfg : Config) (prs : List pullRequestList)
    (acc : List Block) (h : ∃ pr ∈ prs, hasFirstLink pr = false) :
    generateSlackMessageLoop cfg prs acc = none := by
  induction prs generalizing acc with
  | nil =>
    obtain ⟨pr, hmem, _⟩ := h
    exact absurd hmem (List.not_mem_nil pr)
  | cons pr rest ih =>
    cases ht : messageText cfg pr with
    | none => simp [generateSlackMessageLoop, ht]
    | some text =>
      simp only [generateSlackMessageLoop, ht]
      apply ih
      obtain ⟨q, hmem, hq⟩ := h
      rcases List.mem_cons.mp hmem with heq | hin
      · subst heq
        rw [← messageText_eq_none cfg q, ht] at hq
        exact absurd hq (by simp)
      · exact ⟨q, hin, hq⟩

/-- The message of `generateSlackMessage` on records whose index expressions
are in range: the header, then for each record its text block and a divider. -/
theorem generateSlackMessage_ok (cfg : Config) (prs : List pullRequestList)
    (h : ∀ pr ∈ prs, hasFirstLink pr = true) :
    ∃ texts : List String,
      prs.map (messageText cfg) = texts.map some
        ∧ generateSlackMessage cfg prs
            = some { Blocks := { BlockSet :=
                headerSection :: texts.flatMap (fun t => [messageSection t, NewDividerBlock]) } } := by
  obtain ⟨texts, hmap, hloop⟩ := generateSlackMessageLoop_ok cfg prs ([] ++ [headerSection]) h
  refine ⟨texts, hmap, ?_⟩
  simp only [generateSlackMessage, hloop]
  simp

/-- The blocks after the header: the text block of the `i`-th text is at the
index `2 * i`, and a divider at the index `2 * i + 1`. -/
theorem blocks_getElem (texts : List String) (i : Nat) (t : String) (h : texts[i]? = some t) :
    (texts.flatMap (fun t => [messageSection t, NewDividerBlock]))[2 * i]? = some (messageSection t)
      ∧ (texts.flatMap (fun t => [messageSection t, NewDividerBlock]))[2 * i + 1]?
          = some NewDividerBlock := by
  induction texts generalizing i with
  | nil => simp at h
  | cons u us ih =>
    cases i with
    | zero =>
      simp at h
      subst h
      simp [List.flatMap_cons]
    | succ j =>
      simp at h
      have hj := ih j h
      have e1 : 2 * (j + 1) = (2 * j) + 1 + 1 := by ring
      rw [e1]
      simpa [List.flatMap_cons] using hj

/-- The number of blocks after the header is twice the number of texts. -/
theorem blocks_length (texts : List String) :
    (texts.flatMap (fun t => [messageSection t, NewDividerBlock])).length = 2 * texts.length := by
  induction texts with
  | nil => rfl
  | cons u us ih =>
    rw [List.flatMap_cons, List.length_append, ih]
    simp only [List.length_cons, List.length_nil]
    ring

/-- Concatenating strings onto an accumulator puts the accumulator in front. -/
theorem foldl_append_string (l : List String) (acc : String) :
    l.foldl (fun r s => r ++ s) acc = acc ++ String.join l := by
  unfold String.join
  induction l generalizing acc with
  | nil => simp
  | cons x xs ih =>
    rw [List.foldl_cons, List.foldl_cons, ih (acc ++ x), ih ("" ++ x), String.empty_append,
      String.append_assoc]

/-- The string of a non-empty list of strings starts with its first string. -/
theorem join_cons (x : String) (xs : List String) :
    String.join (x :: xs) = x ++ String.join xs := by
  show (x :: xs).foldl (fun r s => r ++ s) "" = x ++ String.join xs
  rw [List.foldl_cons, foldl_append_string, String.empty_append]

/-- The loop building `reviewers` concatenates, in order, the names of the
unapproved reviewers, each followed by a space. -/
theorem reviewersString_eq (revs : List Participant) :
    reviewersString revs
      = String.join
          ((revs.filter (fun r => decide (r.Status = "UNAPPROVED"))).map
            (fun r => r.User.Name ++ " ")) := by
  have h : ∀ acc : String,
      revs.foldl
          (fun reviewers rev =>
            if rev.Status = "UNAPPROVED" then reviewers ++ (rev.User.Name ++ " ") else reviewers)
          acc
        = acc ++ String.join
            ((revs.filter (fun r => decide (r.Status = "UNAPPROVED"))).map
              (fun r => r.User.Name ++ " ")) := by
    induction revs with
    | nil => intro acc; simp [String.join]
    | cons r rs ih =>
      intro acc
      by_cases hr : r.Status = "UNAPPROVED"
      · simp only [List.foldl_cons, hr, if_true, ih, List.filter_cons, decide_True,
          List.map_cons, join_cons, String.append_assoc]
      · simp only [List.foldl_cons, hr, if_false, ih, List.filter_cons, decide_False]
        simp
  unfold reviewersString
  rw [h "", String.empty_append]

/-- The names rendered for a reviewer list: those of the reviewers that are not
excluded and are unapproved, in order, each followed by a space. -/
theorem reviewersString_filterReviewers (cfg : Config) (R : List Participant) :
    reviewersString (filterReviewers cfg R)
      = String.join
          ((R.filter (fun r =>
              decide (r.User.Name ∉ cfg.FilterReviewers ∧ r.Status = "UNAPPROVED"))).map
            (fun r => r.User.Name ++ " ")) := by
  rw [reviewersString_eq, filterReviewers_eq_filter, List.filter_filter]
  congr 2
  apply List.filter_congr
  intro r _
  by_cases h1 : r.User.Name ∈ cfg.FilterReviewers <;> by_cases h2 : r.Status = "UNAPPROVED" <;>
    simp [h1, h2]

/-- The text block of the `i`-th record in the message, on records whose index
expressions are in range. -/
theorem generateSlackMessage_getElem (cfg : Config) (prs : List pullRequestList) (i : Nat)
    (pr : pullRequestList) (text : String)
    (hall : ∀ q ∈ prs, hasFirstLink q = true) (hi : prs[i]? = some pr)
    (ht : messageText cfg pr = some text) :
    ∃ msg, generateSlackMessage cfg prs = some msg
      ∧ msg.Blocks.BlockSet[1 + 2 * i]? = some (messageSection text)
      ∧ msg.Blocks.BlockSet[1 + 2 * i + 1]? = some NewDividerBlock := by
  obtain ⟨texts, hmap, hgen⟩ := generateSlackMessage_ok cfg prs hall
  have hti : texts[i]? = some text := by
    have h1 : (prs.map (messageText cfg))[i]? = (texts.map some)[i]? := by rw [hmap]
    rw [List.getElem?_map, List.getElem?_map, hi] at h1
    simp only [Option.map_some'] at h1
    cases hx : texts[i]? with
    | none => rw [hx] at h1; simp at h1
    | some u =>
      rw [hx] at h1
      simp only [Option.map_some'] at h1
      rw [ht] at h1
      exact (Option.some.inj h1).symm
  obtain ⟨hb1, hb2⟩ := blocks_getElem texts i text hti
  refine ⟨_, hgen, ?_, ?_⟩
  · have e : 1 + 2 * i = 2 * i + 1 := by ring
    rw [e]
    simpa using hb1
  · have e : 1 + 2 * i + 1 = (2 * i + 1) + 1 := by ring
    rw [e]
    simpa using hb2

/-- C3, amended. In the message rendered from a record sequence whose index
expressions are in range, the text block of the record at position `i`, with
project name `n`, project key `k`, repository name `r`, title `t`, first
self-link href `l` and rendered reviewer string `s`, is the `mrkdwn` section with
the text `*Project:* n k\n*Repository:* r\n*<l|t>*\n*To review:* s`, at the index
`1 + 2 * i`. In the end-to-end example the collector returns one record and its
text is
`*Project:* Team TEAM\n*Repository:* Service\n*<https://host/pr/1|Fix bug>*\n*To review:* alice `. -/
theorem generateSlackMessage_text (cfg : Config) (prs : List pullRequestList) (i : Nat)
    (pr : pullRequestList) (p : pullRequest) (ps : List pullRequest) (link : Link)
    (links : List Link) (n k r t l s : String)
    (hall : ∀ q ∈ prs, hasFirstLink q = true) (hi : prs[i]? = some pr)
    (hp : pr.PullRequests = p :: ps) (hl : p.Link = link :: links)
    (hn : pr.ProjectName = n) (hk : pr.ProjectKey = k) (hr : pr.RepositoryName = r)
    (ht : pr.Title = t) (hhref : Link.get link "href" = l)
    (hs : reviewersString (filterReviewers cfg p.Reviewers) = s) :
    (∃ msg, generateSlackMessage cfg prs = some msg
        ∧ msg.Blocks.BlockSet[1 + 2 * i]?
            = some (NewSectionBlock (NewTextBlockObject "mrkdwn"
                ("*Project:* " ++ n ++ " " ++ k ++ "\n*Repository:* " ++ r ++ "\n*<" ++ l ++ "|"
                  ++ t ++ ">*\n*To review:* " ++ s) false false)))
      ∧ (getPullRequests exampleClient [exampleRepository] ()).1 = .ok [exampleRecord]
      ∧ generateSlackMessage exampleConfig [exampleRecord]
          = some { Blocks := { BlockSet :=
              [headerSection,
               NewSectionBlock (NewTextBlockObject "mrkdwn"
                 "*Project:* Team TEAM\n*Repository:* Service\n*<https://host/pr/1|Fix bug>*\n*To review:* alice "
                 false false),
               NewDividerBlock] } } := by
  refine ⟨?_, rfl, by decide⟩
  have hm := messageText_of_first cfg pr p ps link links hp hl
  rw [hn, hk, hr, ht, hhref, hs] at hm
  obtain ⟨msg, hgen, hb, _⟩ := generateSlackMessage_getElem cfg prs i pr _ hall hi hm
  exact ⟨msg, hgen, hb⟩

/-- C3, amended, at the record of the end-to-end example. -/
theorem generateSlackMessage_text_witness :
    ∃ msg, generateSlackMessage exampleConfig [exampleRecord] = some msg
      ∧ msg.Blocks.BlockSet[1 + 2 * 0]?
          = some (NewSectionBlock (NewTextBlockObject "mrkdwn"
              ("*Project:* " ++ "Team" ++ " " ++ "TEAM" ++ "\n*Repository:* " ++ "Service"
                ++ "\n*<" ++ "https://host/pr/1" ++ "|" ++ "Fix bug" ++ ">*\n*To review:* "
                ++ "alice ") false false)) :=
  (generateSlackMessage_text exampleConfig [exampleRecord] 0 exampleRecord
    { Reviewers := [alice, bob], Link := [[("href", "https://host/pr/1")]],
      CreatedDate := 1700000000, Author := "carol" } []
    [("href", "https://host/pr/1")] [] "Team" "TEAM" "Service" "Fix bug" "https://host/pr/1"
    "alice " (by decide) rfl rfl rfl rfl rfl rfl rfl rfl (by decide)).1

/-- C3 as stated fails in the end-to-end example: the text of the record
carries the markup of the format string (`*Project:*`, `*Repository:*`,
`*<link|title>*`, `*To review:*`), so it is not the plain text
`Project: Team TEAM\nRepository: Service\n<https://host/pr/1|Fix bug>\nTo review: alice `. -/
theorem messageText_example_markup :
    (getPullRequests exampleClient [exampleRepository] ()).1 = .ok [exampleRecord]
      ∧ messageText exampleConfig exampleRecord
          = some "*Project:* Team TEAM\n*Repository:* Service\n*<https://host/pr/1|Fix bug>*\n*To review:* alice "
      ∧ messageText exampleConfig exampleRecord
          ≠ some "Project: Team TEAM\nRepository: Service\n<https://host/pr/1|Fix bug>\nTo review: alice "
      ∧ ∀ msg, generateSlackMessage exampleConfig [exampleRecord] = some msg →
          ∀ b ∈ msg.Blocks.BlockSet, ∀ text,
            b = NewSectionBlock text →
              text.Text ≠ "Project: Team TEAM\nRepository: Service\n<https://host/pr/1|Fix bug>\nTo review: alice " := by
  refine ⟨rfl, by decide, by decide, ?_⟩
  intro msg hmsg
  have hgen : generateSlackMessage exampleConfig [exampleRecord]
      = some { Blocks := { BlockSet :=
          [headerSection,
           NewSectionBlock (NewTextBlockObject "mrkdwn"
             "*Project:* Team TEAM\n*Repository:* Service\n*<https://host/pr/1|Fix bug>*\n*To review:* alice "
             false false),
           NewDividerBlock] } } := by decide
  rw [hgen] at hmsg
  cases hmsg
  intro b hb text hbt
  simp only [List.mem_cons, List.mem_singleton, List.not_mem_nil, or_false] at hb
  rcases hb with h | h | h
  · rw [h] at hbt
    cases hbt
    decide
  · rw [h] at hbt
    cases hbt
    decide
  · rw [h] at hbt
    cases hbt

/-- C4. For every record sequence whose index expressions are in range, every
record `pr` of it (at position `i`) and every exclusion list, the string
rendered after `*To review:* ` in the text block of `pr` is the concatenation,
in reviewer-list order, of the user names, each followed by one space, of
exactly those reviewers of `pr` whose name is not excluded and whose status is
`UNAPPROVED`. -/
theorem generateSlackMessage_reviewer_names (cfg : Config) (prs : List pullRequestList)
    (i : Nat) (pr : pullRequestList) (p : pullRequest) (ps : List pullRequest) (link : Link)
    (links : List Link)
    (hall : ∀ q ∈ prs, hasFirstLink q = true) (hi : prs[i]? = some pr)
    (hp : pr.PullRequests = p :: ps) (hl : p.Link = link :: links) :
    ∃ msg, generateSlackMessage cfg prs = some msg
      ∧ msg.Blocks.BlockSet[1 + 2 * i]?
          = some (NewSectionBlock (NewTextBlockObject "mrkdwn"
              ("*Project:* " ++ pr.ProjectName ++ " " ++ pr.ProjectKey ++ "\n*Repository:* "
                ++ pr.RepositoryName ++ "\n*<" ++ Link.get link "href" ++ "|" ++ pr.Title
                ++ ">*\n*To review:* "
                ++ String.join
                    ((p.Reviewers.filter (fun rev =>
                        decide (rev.User.Name ∉ cfg.FilterReviewers
                          ∧ rev.Status = "UNAPPROVED"))).map
                      (fun rev => rev.User.Name ++ " "))) false false)) := by
  have hm := messageText_of_first cfg pr p ps link links hp hl
  rw [reviewersString_filterReviewers] at hm
  obtain ⟨msg, hgen, hb, _⟩ := generateSlackMessage_getElem cfg prs i pr _ hall hi hm
  exact ⟨msg, hgen, hb⟩

/-- C4 at the second of two records, with `alice` excluded: of `bob`
(approved), `dave` (needs work), `alice` (excluded) and `erin`, only `erin` is
named. -/
theorem generateSlackMessage_reviewer_names_witness :
    ∃ msg,
      generateSlackMessage { exampleConfig with FilterReviewers := ["alice"] }
          [exampleRecord, secondRecord] = some msg
        ∧ msg.Blocks.BlockSet[1 + 2 * 1]?
            = some (NewSectionBlock (NewTextBlockObject "mrkdwn"
                "*Project:* Operations OPS\n*Repository:* Infra\n*<https://host/pr/2|Rotate keys>*\n*To review:* erin "
                false false)) :=
  generateSlackMessage_reviewer_names { exampleConfig with FilterReviewers := ["alice"] }
    [exampleRecord, secondRecord] 1 secondRecord _ [] [("href", "https://host/pr/2")] []
    (by decide) rfl rfl rfl

/-- C5, amended. For every configuration and every record sequence of length
`N` in which every record has a first nested pull request with a non-empty link
list, rendering succeeds and the message has exactly `1 + 2 * N` blocks; for the
empty sequence the message is the header block alone. -/
theorem generateSlackMessage_block_count (cfg : Config) (prs : List pullRequestList)
    (hall : ∀ q ∈ prs, hasFirstLink q = true) :
    (∃ msg, generateSlackMessage cfg prs = some msg
        ∧ msg.Blocks.BlockSet.length = 1 + 2 * prs.length)
      ∧ generateSlackMessage cfg [] = some { Blocks := { BlockSet := [headerSection] } } := by
  refine ⟨?_, rfl⟩
  obtain ⟨texts, hmap, hgen⟩ := generateSlackMessage_ok cfg prs hall
  refine ⟨_, hgen, ?_⟩
  have hlen : texts.length = prs.length := by
    have h := congrArg List.length hmap
    simpa using h.symm
  simp only [List.length_cons, blocks_length, hlen]
  ring

/-- C5, amended, at the two example records: five blocks. -/
theorem generateSlackMessage_block_count_witness :
    (∀ q ∈ [exampleRecord, secondRecord], hasFirstLink q = true)
      ∧ ∃ msg, generateSlackMessage exampleConfig [exampleRecord, secondRecord] = some msg
          ∧ msg.Blocks.BlockSet.length = 1 + 2 * [exampleRecord, secondRecord].length :=
  ⟨by decide,
   (generateSlackMessage_block_count exampleConfig [exampleRecord, secondRecord]
      (by decide)).1⟩

/-- C5 as stated fails: rendering does not succeed on a record without a nested
pull request, nor on the record the collector builds for a pull request that
comes without a `self` link; in both the index expression is out of range. -/
theorem generateSlackMessage_index_out_of_range :
    generateSlackMessage exampleConfig [emptyRecord] = none
      ∧ (getPullRequests (fixedClient [exampleProject] (fun _ _ => [unlinkedPullRequest]))
            [exampleRepository] ()).1
          = .ok [currentPullRequest exampleRepository unlinkedPullRequest]
      ∧ generateSlackMessage exampleConfig
          [currentPullRequest exampleRepository unlinkedPullRequest] = none := by
  refine ⟨rfl, rfl, rfl⟩

/-- C6, amended. For every record sequence whose index expressions are in range
the message is the header block followed, for every record in order, by that
record's text block and then a divider; so for a non-empty sequence the block at
index 1 is the text block of the first record and the last block is a
divider. -/
theorem generateSlackMessage_block_order (cfg : Config) (prs : List pullRequestList)
    (hall : ∀ q ∈ prs, hasFirstLink q = true) :
    ∃ (texts : List String) (msg : WebhookMessage),
      prs.map (messageText cfg) = texts.map some
        ∧ generateSlackMessage cfg prs = some msg
        ∧ msg.Blocks.BlockSet
            = headerSection :: texts.flatMap (fun t => [messageSection t, NewDividerBlock])
        ∧ (prs ≠ [] →
            msg.Blocks.BlockSet[1]? = (texts.head?).map messageSection
              ∧ texts.head? ≠ none
              ∧ msg.Blocks.BlockSet.getLast? = some NewDividerBlock) := by
  obtain ⟨texts, hmap, hgen⟩ := generateSlackMessage_ok cfg prs hall
  refine ⟨texts, _, hmap, hgen, rfl, ?_⟩
  intro hne
  have hlen : texts.length = prs.length := by
    have h := congrArg List.length hmap
    simpa using h.symm
  cases texts with
  | nil =>
    have : prs.length = 0 := by simpa using hlen.symm
    exact absurd (List.length_eq_zero.mp this) hne
  | cons t ts =>
    refine ⟨by simp [List.flatMap_cons], by simp, ?_⟩
    have hlast := (blocks_getElem (t :: ts) ts.length ((t :: ts).getLast (by simp))
      (by rw [List.getLast_eq_getElem]; simp)).2
    rw [List.getLast?_eq_getElem?]
    have hl2 : (headerSection ::
        (t :: ts).flatMap (fun t => [messageSection t, NewDividerBlock])).length - 1
          = (2 * ts.length + 1) + 1 := by
      rw [List.length_cons, blocks_length, List.length_cons]
      omega
    simp only [hl2]
    rw [List.getElem?_cons_succ]
    exact hlast

/-- C6, amended, at the two example records. -/
theorem generateSlackMessage_block_order_witness :
    ∃ (texts : List String) (msg : WebhookMessage),
      [exampleRecord, secondRecord].map (messageText exampleConfig) = texts.map some
        ∧ generateSlackMessage exampleConfig [exampleRecord, secondRecord] = some msg
        ∧ msg.Blocks.BlockSet
            = headerSection :: texts.flatMap (fun t => [messageSection t, NewDividerBlock])
        ∧ ([exampleRecord, secondRecord] ≠ [] →
            msg.Blocks.BlockSet[1]? = (texts.head?).map messageSection
              ∧ texts.head? ≠ none
              ∧ msg.Blocks.BlockSet.getLast? = some NewDividerBlock) :=
  generateSlackMessage_block_order exampleConfig [exampleRecord, secondRecord] (by decide)

/-- C6 as stated fails in the end-to-end example: the block at index 1 is the
text block of the record, not a divider, and the last block is a divider, not
a text block. -/
theorem generateSlackMessage_text_before_divider :
    ∃ msg, generateSlackMessage exampleConfig [exampleRecord] = some msg
      ∧ msg.Blocks.BlockSet.length = 3
      ∧ msg.Blocks.BlockSet[1]? ≠ some NewDividerBlock
      ∧ msg.Blocks.BlockSet[1]?
          = some (NewSectionBlock (NewTextBlockObject "mrkdwn"
              "*Project:* Team TEAM\n*Repository:* Service\n*<https://host/pr/1|Fix bug>*\n*To review:* alice "
              false false))
      ∧ msg.Blocks.BlockSet.getLast? = some NewDividerBlock
      ∧ ∀ text, msg.Blocks.BlockSet.getLast? ≠ some (NewSectionBlock text) := by
  refine ⟨_, rfl, by decide, by decide, by decide, by decide, ?_⟩
  intro text h
  have h2 : some NewDividerBlock = some (NewSectionBlock text) := h
  cases h2

/-! ## Pull request collection -/

/-- The record built for a pull request: the reviewers are those of the pull
request, and the one nested entry holds them with the `self` links. -/
theorem currentPullRequest_eq (repo : Repository) (v : PullRequest) :
    currentPullRequest repo v
      = { ProjectKey := repo.Project.Key
          ProjectName := repo.Project.Name
          RepositoryKey := repo.Slug
          RepositoryName := repo.Name
          Title := v.Title
          PullRequests :=
            [{ Reviewers := v.Reviewers
               Link := Links.get v.Links "self"
               CreatedDate := v.CreatedDate
               Author := v.Author.User.Slug }] } := by
  simp [currentPullRequest, foldl_append_all]

/-- The loop of `getPullRequests` when every fetch succeeds: the records of the
pages are appended, repository by repository. -/
theorem getPullRequestsLoop_ok {σ : Type} (c : BitClient σ) (repos : List Repository)
    (pages : List (List PullRequest)) (acc : List pullRequestList) (s : σ)
    (h : Fetched c s repos pages) :
    (getPullRequestsLoop c repos acc s).1
      = .ok (acc ++ (repos.zip pages).flatMap
          (fun rp => rp.2.map (fun v => currentPullRequest rp.1 v))) := by
  induction repos generalizing pages acc s with
  | nil =>
    cases pages with
    | nil => simp [getPullRequestsLoop]
    | cons page rest => exact absurd h (by simp [Fetched])
  | cons repo rest ih =>
    cases pages with
    | nil => exact absurd h (by simp [Fetched])
    | cons page pages =>
      obtain ⟨hfetch, hrest⟩ := h
      rcases hc : c.GetPullRequests repo.Project.Key repo.Slug prRequest s with ⟨r, s1⟩
      rw [hc] at hfetch hrest
      simp only at hfetch hrest
      subst hfetch
      simp only [getPullRequestsLoop, hc]
      by_cases hlen : page.length > 0
      · simp only [hlen, if_true]
        rw [ih pages _ s1 hrest, foldl_append_all]
        simp [List.flatMap_cons, List.append_assoc]
      · have hnil : page = [] := by
          cases page with
          | nil => rfl
          | cons v vs => exact absurd (Nat.succ_pos _) hlen
        subst hnil
        simp only [List.length_nil, gt_iff_lt, Nat.lt_irrefl, if_false]
        rw [ih pages _ s1 hrest]
        simp [List.flatMap_cons]

/-- The number of elements of the flattened pages is the sum of the page
sizes. -/
theorem flatten_length {β : Type} (f : Repository → PullRequest → β) (repos : List Repository)
    (pages : List (List PullRequest)) (h : repos.length = pages.length) :
    ((repos.zip pages).flatMap (fun rp => rp.2.map (fun v => f rp.1 v))).length
      = (pages.map List.length).sum := by
  induction repos generalizing pages with
  | nil =>
    cases pages with
    | nil => rfl
    | cons page rest => simp at h
  | cons repo rest ih =>
    cases pages with
    | nil => simp at h
    | cons page pages =>
      have h2 : rest.length = pages.length := by simpa using h
      simp [List.flatMap_cons, ih pages h2]

/-- The lists of repositories and of pages of a successful run have the same
length. -/
theorem Fetched.length_eq {σ : Type} (c : BitClient σ) (repos : List Repository)
    (pages : List (List PullRequest)) (s : σ) (h : Fetched c s repos pages) :
    repos.length = pages.length := by
  induction repos generalizing pages s with
  | nil =>
    cases pages with
    | nil => rfl
    | cons page rest => exact absurd h (by simp [Fetched])
  | cons repo rest ih =>
    cases pages with
    | nil => exact absurd h (by simp [Fetched])
    | cons page pages =>
      obtain ⟨_, hrest⟩ := h
      simp [ih pages _ hrest]

/-- C7. When the fetches for the repositories `repos` succeed with the pages
`pages`, `getPullRequests` returns one record per (repository, pull request)
pair, in repository order and then in page order; its length is the sum of the
page sizes (a repository with an empty page contributes nothing); each record
carries the project key and name, the slug and the name of its repository and
the title of its pull request, and its nested list has exactly one element,
holding the reviewers of the pull request in order and its `self` links. -/
theorem getPullRequests_flatten {σ : Type} (c : BitClient σ) (s : σ) (repos : List Repository)
    (pages : List (List PullRequest)) (h : Fetched c s repos pages) :
    ∃ records : List pullRequestList,
      (getPullRequests c repos s).1 = .ok records
        ∧ records = (repos.zip pages).flatMap (fun rp => rp.2.map (fun v =>
            { ProjectKey := rp.1.Project.Key
              ProjectName := rp.1.Project.Name
              RepositoryKey := rp.1.Slug
              RepositoryName := rp.1.Name
              Title := v.Title
              PullRequests :=
                [{ Reviewers := v.Reviewers
                   Link := Links.get v.Links "self"
                   CreatedDate := v.CreatedDate
                   Author := v.Author.User.Slug }] }))
        ∧ records.length = (pages.map List.length).sum
        ∧ ∀ record ∈ records, record.PullRequests.length = 1 := by
  have hloop := getPullRequestsLoop_ok c repos pages [] s h
  simp only [List.nil_append, currentPullRequest_eq] at hloop
  have hlen := flatten_length currentPullRequest repos pages (Fetched.length_eq c repos pages s h)
  simp only [currentPullRequest_eq] at hlen
  refine ⟨_, hloop, rfl, hlen, ?_⟩
  intro record hrec
  simp only [List.mem_flatMap, List.mem_map] at hrec
  obtain ⟨rp, _, v, _, hv⟩ := hrec
  rw [← hv]
  rfl

/-- C7 at three repositories, fetched from a client whose pages change from call
to call: the pages have one, zero and two pull requests, and three records are
returned. -/
theorem getPullRequests_flatten_witness :
    Fetched countingClient 0 [exampleRepository, quietRepository, exampleRepository]
        [[examplePullRequest], [], [examplePullRequest, secondPullRequest]]
      ∧ ∃ records : List pullRequestList,
          (getPullRequests countingClient
              [exampleRepository, quietRepository, exampleRepository] 0).1 = .ok records
            ∧ records
                = ([exampleRepository, quietRepository, exampleRepository].zip
                    [[examplePullRequest], [], [examplePullRequest, secondPullRequest]]).flatMap
                  (fun rp => rp.2.map (fun v =>
                    { ProjectKey := rp.1.Project.Key
                      ProjectName := rp.1.Project.Name
                      RepositoryKey := rp.1.Slug
                      RepositoryName := rp.1.Name
                      Title := v.Title
                      PullRequests :=
                        [{ Reviewers := v.Reviewers
                           Link := Links.get v.Links "self"
                           CreatedDate := v.CreatedDate
                           Author := v.Author.User.Slug }] }))
            ∧ records.length
                = ([[examplePullRequest], [], [examplePullRequest, secondPullRequest]].map
                    List.length).sum
            ∧ ∀ record ∈ records, record.PullRequests.length = 1 :=
  ⟨by decide,
   getPullRequests_flatten countingClient 0
     [exampleRepository, quietRepository, exampleRepository]
     [[examplePullRequest], [], [examplePullRequest, secondPullRequest]]
     (by decide)⟩

/-! ## Host normalisation -/

/-- The function `stringsContains` decides whether the second string occurs as
a contiguous part of the first. -/
theorem stringsContains_iff (s substr : String) :
    stringsContains s substr = true ↔ substr.data <:+: s.data := by
  unfold stringsContains
  rw [List.any_eq_true]
  constructor
  · rintro ⟨t, ht, hpre⟩
    rw [List.mem_tails] at ht
    rw [List.isPrefixOf_iff_prefix] at hpre
    exact List.infix_iff_prefix_suffix.mpr ⟨t, hpre, ht⟩
  · intro h
    obtain ⟨t, hpre, hsuf⟩ := List.infix_iff_prefix_suffix.mp h
    exact ⟨t, (List.mem_tails _ _).mpr hsuf, List.isPrefixOf_iff_prefix.mpr hpre⟩

/-- A host without `https://` gets the prefix and the suffix; nothing else of
the configuration changes. -/
theorem normalizeHost_of_not_contains (cfg : Config)
    (h : ¬ "https://".data <:+: cfg.Bitbucket.Host.data) :
    normalizeHost cfg
      = { cfg with
          Bitbucket := { cfg.Bitbucket with Host := "https://" ++ cfg.Bitbucket.Host ++ "/" } } := by
  have hc : stringsContains cfg.Bitbucket.Host "https://" = false := by
    cases hb : stringsContains cfg.Bitbucket.Host "https://" with
    | false => rfl
    | true => exact absurd ((stringsContains_iff _ _).mp hb) h
  simp [normalizeHost, hc]

/-- A configuration whose host contains `https://` is left as it is. -/
theorem normalizeHost_of_contains (cfg : Config)
    (h : "https://".data <:+: cfg.Bitbucket.Host.data) : normalizeHost cfg = cfg := by
  have hc : stringsContains cfg.Bitbucket.Host "https://" = true :=
    (stringsContains_iff _ _).mpr h
  simp [normalizeHost, hc]

/-- The normalised form of a host contains `https://`. -/
theorem contains_https_normalized (host : String) :
    "https://".data <:+: ("https://" ++ host ++ "/").data := by
  refine ⟨[], host.data ++ "/".data, ?_⟩
  simp [String.data_append]

/-- A host is not its own normalised form: that one is nine characters
longer. -/
theorem ne_normalized (host : String) : "https://" ++ host ++ "/" ≠ host := by
  intro h
  have h2 : ("https://" ++ host ++ "/").data.length = host.data.length := by rw [h]
  rw [String.data_append, String.data_append, List.length_append, List.length_append] at h2
  have h3 : "https://".data.length = 8 := by decide
  have h4 : "/".data.length = 1 := by decide
  rw [h3, h4] at h2
  omega

/-- C8. For every host that does not contain `https://` the resolved host is
`"https://" ++ host ++ "/"`; for every host that contains `https://` the
resolved host is the host unchanged (and so is the whole configuration);
normalising twice is normalising once. -/
theorem normalizeHost_spec (cfg : Config) :
    (¬ "https://".data <:+: cfg.Bitbucket.Host.data →
        (normalizeHost cfg).Bitbucket.Host = "https://" ++ cfg.Bitbucket.Host ++ "/")
      ∧ ("https://".data <:+: cfg.Bitbucket.Host.data →
          (normalizeHost cfg).Bitbucket.Host = cfg.Bitbucket.Host ∧ normalizeHost cfg = cfg)
      ∧ normalizeHost (normalizeHost cfg) = normalizeHost cfg := by
  refine ⟨?_, ?_, ?_⟩
  · intro h
    rw [normalizeHost_of_not_contains cfg h]
  · intro h
    rw [normalizeHost_of_contains cfg h]
    exact ⟨rfl, rfl⟩
  · by_cases h : "https://".data <:+: cfg.Bitbucket.Host.data
    · rw [normalizeHost_of_contains cfg h, normalizeHost_of_contains cfg h]
    · rw [normalizeHost_of_not_contains cfg h]
      exact normalizeHost_of_contains _ (contains_https_normalized cfg.Bitbucket.Host)

/-- C8 at the host `bitbucket.local`. -/
theorem normalizeHost_spec_witness :
    (¬ "https://".data <:+: "bitbucket.local".data)
      ∧ (normalizeHost (hostConfig "bitbucket.local")).Bitbucket.Host
          = "https://bitbucket.local/" :=
  have h : ¬ "https://".data <:+: "bitbucket.local".data := by
    rw [← stringsContains_iff]
    decide
  ⟨h, (normalizeHost_spec (hostConfig "bitbucket.local")).1 h⟩

/-- C9, amended. The resolved host is `"https://" ++ host ++ "/"` if and only if
the host does not contain `https://`, and it is the host unchanged if and only
if the host contains `https://`: what decides is the occurrence of `https://`
anywhere in the host, not the presence of a scheme. -/
theorem normalizeHost_iff (cfg : Config) :
    ((normalizeHost cfg).Bitbucket.Host = "https://" ++ cfg.Bitbucket.Host ++ "/"
        ↔ ¬ "https://".data <:+: cfg.Bitbucket.Host.data)
      ∧ ((normalizeHost cfg).Bitbucket.Host = cfg.Bitbucket.Host
        ↔ "https://".data <:+: cfg.Bitbucket.Host.data) := by
  by_cases h : "https://".data <:+: cfg.Bitbucket.Host.data
  · rw [normalizeHost_of_contains cfg h]
    refine ⟨⟨fun heq => absurd heq.symm (ne_normalized _), fun hn => absurd h hn⟩, ?_⟩
    exact ⟨fun _ => h, fun _ => rfl⟩
  · rw [normalizeHost_of_not_contains cfg h]
    refine ⟨⟨fun _ => h, fun _ => rfl⟩, ?_⟩
    exact ⟨fun heq => absurd heq (ne_normalized _), fun hc => absurd hc h⟩

/-- C9, amended, at the host `http://bitbucket.local`, which has a scheme and
does not contain `https://`: it gets the prefix and the suffix. -/
theorem normalizeHost_iff_witness :
    (normalizeHost (hostConfig "http://bitbucket.local")).Bitbucket.Host
      = "https://" ++ "http://bitbucket.local" ++ "/" :=
  (normalizeHost_iff (hostConfig "http://bitbucket.local")).1.mpr
    (by rw [← stringsContains_iff]; decide)

/-- C9 as stated fails in both directions: the host `http://bitbucket.local` has
a URL scheme and is not left unchanged (it becomes
`https://http://bitbucket.local/`), and the host
`proxy.local/https://bitbucket.local` lacks a URL scheme and gets no prefix. -/
theorem normalizeHost_scheme_counterexample :
    hasUrlScheme "http://bitbucket.local" = true
      ∧ (normalizeHost (hostConfig "http://bitbucket.local")).Bitbucket.Host
          = "https://http://bitbucket.local/"
      ∧ (normalizeHost (hostConfig "http://bitbucket.local")).Bitbucket.Host
          ≠ "http://bitbucket.local"
      ∧ hasUrlScheme "proxy.local/https://bitbucket.local" = false
      ∧ (normalizeHost (hostConfig "proxy.local/https://bitbucket.local")).Bitbucket.Host
          = "proxy.local/https://bitbucket.local" := by
  refine ⟨by decide, by decide, by decide, by decide, by decide⟩

/-! ## Validation -/

/-- C10. For every configuration `validateConfig` returns an error if and only
if the webhook URL is the empty string; a configuration with a non-empty
webhook URL passes whatever its host, user, password, projects and excluded
reviewers are; validation leaves the configuration unchanged. -/
theorem validateConfig_spec (cfg : Config) :
    ((validateConfig cfg).2 ≠ none ↔ cfg.Slack.WebhookURL = "")
      ∧ (∀ (bitbucket : BitbucketConfig) (projects : List Projects)
            (filterReviewers : List String),
          cfg.Slack.WebhookURL ≠ "" →
            (validateConfig
              { Bitbucket := bitbucket, Projects := projects, FilterReviewers := filterReviewers,
                Slack := cfg.Slack }).2 = none)
      ∧ (validateConfig cfg).1 = cfg := by
  refine ⟨?_, ?_, ?_⟩
  · by_cases h : cfg.Slack.WebhookURL = ""
    · simp [validateConfig, h]
    · simp [validateConfig, h]
  · intro bitbucket projects filterReviewers h
    simp [validateConfig, h]
  · by_cases h : cfg.Slack.WebhookURL = ""
    · simp [validateConfig, h]
    · simp [validateConfig, h]

/-- C10 at the example configuration, with every other field emptied. -/
theorem validateConfig_spec_witness :
    exampleConfig.Slack.WebhookURL ≠ ""
      ∧ (validateConfig
          { Bitbucket := { Host := "", User := "", Password := "" }, Projects := [],
            FilterReviewers := [], Slack := exampleConfig.Slack }).2 = none :=
  ⟨by decide,
   (validateConfig_spec exampleConfig).2.1 { Host := "", User := "", Password := "" } [] []
     (by decide)⟩

end PrReminder
